import Mathlib

/-!
Verification of `gen_matrices.py`: extraction of a C matrix literal,
generation of the inverse DCT matrix, round-trip verification, and the
raw float32 binary writer.  Source text is modelled as `List Char`;
numeric values are idealized as rationals (extractor, writer) and reals
(DCT generator).
-/

namespace GenMatrices

/-! ## Text utilities: Python `str.strip`, `str.split`, `float` -/

/-- Characters stripped by Python `str.strip()` (the ASCII whitespace set). -/
def pyIsSpace (c : Char) : Bool :=
  decide (c = ' ' ∨ c = '\t' ∨ c = '\n' ∨ c = '\r' ∨ c = '\x0b' ∨ c = '\x0c')

/-- Python `x.strip()`: drop whitespace from both ends. -/
def pyStrip (s : List Char) : List Char :=
  ((s.dropWhile pyIsSpace).reverse.dropWhile pyIsSpace).reverse

def isDigit (c : Char) : Bool := c.isDigit

/-- Value of a digit string, most significant first. -/
def digitsToNat (s : List Char) : ℕ :=
  s.foldl (fun a c => 10 * a + (c.toNat - 48)) 0

/-- One-or-more exponent digits, applied to the mantissa `m` with the
exponent sign `pos`. -/
def expDigits (m : ℚ) (pos : Bool) (ds : List Char) : Option ℚ :=
  if ds ≠ [] ∧ ds.all isDigit then
    some (if pos then m * 10 ^ digitsToNat ds else m / 10 ^ digitsToNat ds)
  else none

/-- After `e`/`E` in a float literal: an optional sign and one or more
digits. -/
def parseExpAfterE (m : ℚ) : List Char → Option ℚ
  | [] => none
  | c2 :: r2 =>
    if c2 = '+' then expDigits m true r2
    else if c2 = '-' then expDigits m false r2
    else expDigits m true (c2 :: r2)

/-- Exponent tail of a Python float literal: either empty or `e`/`E`,
an optional sign, and one or more digits; scales the mantissa by the
corresponding power of ten. -/
def parseExp10 (m : ℚ) : List Char → Option ℚ
  | [] => some m
  | c :: r => if c = 'e' ∨ c = 'E' then parseExpAfterE m r else none

/-- Python `float(...)` on a stripped token, for the decimal forms a C
numeric literal can take: digits with an optional point, optional
fractional digits, and an optional exponent.  (`float` additionally accepts
`inf`/`nan` and underscore digit separators; those do not occur in matrix
literals and are not modelled.)  Values are idealized as rationals. -/
def parseUnsignedFloat (s : List Char) : Option ℚ :=
  let ds := s.takeWhile isDigit
  let r1 := s.dropWhile isDigit
  if r1 ≠ [] ∧ r1.headI = '.' then
    let fs := r1.tail.takeWhile isDigit
    let r3 := r1.tail.dropWhile isDigit
    if ds = [] ∧ fs = [] then none
    else parseExp10 ((digitsToNat ds : ℚ) + (digitsToNat fs : ℚ) / 10 ^ fs.length) r3
  else if ds = [] then none
  else parseExp10 ((digitsToNat ds : ℚ)) r1

/-- Python `float(...)`: optional leading sign, then an unsigned decimal. -/
def parseFloat (s : List Char) : Option ℚ :=
  if s ≠ [] ∧ s.headI = '+' then parseUnsignedFloat s.tail
  else if s ≠ [] ∧ s.headI = '-' then (parseUnsignedFloat s.tail).map (fun q => -q)
  else parseUnsignedFloat s

/-- Python `row.split(',')`.  (`split` never returns an empty list, so
prepending to the head of the recursive result is total.) -/
def splitComma : List Char → List (List Char)
  | [] => [[]]
  | c :: cs =>
    if c = ',' then [] :: splitComma cs
    else (c :: (splitComma cs).headI) :: (splitComma cs).tail

/-- The row comprehension
`[float(x.strip()) for x in row.split(',') if x.strip()]`:
segments whose strip is empty are skipped; a malformed literal anywhere
makes the whole row fail (`ValueError` from `float`). -/
def parseRow : List (List Char) → Option (List ℚ)
  | [] => some []
  | seg :: rest =>
    if pyStrip seg = [] then parseRow rest
    else (parseFloat (pyStrip seg)).bind fun v => (parseRow rest).map (v :: ·)

/-! ## The regex search `pca_weight\[.*?\]\[.*?\]\s*=\s*\{`

Modelled by a backtracking matcher with Python semantics: the lazy
`.*?` first tries to match nothing (so the following `\]` is tried at
the current character) and on failure of the continuation consumes one
non-newline character.  `re.search` tries each start position from the
left. -/

/-- Tail of the pattern, `\s*=\s*\{`; returns the remainder after the
opening brace (the `match.end()` position). -/
def matchEqBrace (s : List Char) : Option (List Char) :=
  match s.dropWhile pyIsSpace with
  | '=' :: r2 =>
    match r2.dropWhile pyIsSpace with
    | '{' :: r4 => some r4
    | _ => none
  | _ => none

/-- Pattern piece `.*?\]\s*=\s*\{` with lazy backtracking. -/
def matchBr2 : List Char → Option (List Char)
  | [] => none
  | c :: cs =>
    match (if c = ']' then matchEqBrace cs else none) with
    | some r => some r
    | none => if c = '\n' then none else matchBr2 cs

/-- Pattern piece `.*?\]\[` followed by the rest of the pattern, with lazy
backtracking. -/
def matchBr1 : List Char → Option (List Char)
  | [] => none
  | c :: cs =>
    match
      (if c = ']' then
        match cs with
        | '[' :: cs2 => matchBr2 cs2
        | _ => none
      else none) with
    | some r => some r
    | none => if c = '\n' then none else matchBr1 cs

/-- Consume the literal characters `pat`, then match the rest of the
pattern (`.*?\]\[.*?\]\s*=\s*\{`). -/
def matchLit : List Char → List Char → Option (List Char)
  | [], t => matchBr1 t
  | _ :: _, [] => none
  | p :: ps, c :: cs => if c = p then matchLit ps cs else none

/-- The literal prefix `pca_weight[` of the pattern. -/
def pcaLit : List Char := ['p', 'c', 'a', '_', 'w', 'e', 'i', 'g', 'h', 't', '[']

/-- Python `re.search` for the whole pattern: try each start position from the
left; a position matches when the literal `pca_weight[` starts there and
the rest of the pattern matches what follows. -/
def reSearch : List Char → Option (List Char)
  | [] => none
  | c :: cs =>
    match matchLit pcaLit (c :: cs) with
    | some r => some r
    | none => reSearch cs

/-! ## Brace-depth scan and `re.findall(r'\{([^}]+)\}', ...)` -/

/-- The `while depth > 0 and pos < len(text)` loop: returns the characters
consumed by the loop.  The source then takes `text[start:pos-1]`, i.e. the
consumed characters without the last one. -/
def braceScan (d : ℤ) : List Char → List Char
  | [] => []
  | c :: cs =>
    if d ≤ 0 then []
    else
      let d' := if c = '{' then d + 1 else if c = '}' then d - 1 else d
      c :: braceScan d' cs

/-- One attempted match of `([^}]+)\}`: a maximal nonempty run of
non-`}` characters followed by `}`; returns the capture and the
remainder after the closing brace. -/
def grabGroup : List Char → Option (List Char × List Char)
  | [] => none
  | [_] => none
  | c :: c2 :: cs2 =>
    if c = '}' then none
    else if c2 = '}' then some ([c], cs2)
    else (grabGroup (c2 :: cs2)).map (fun p => (c :: p.1, p.2))

theorem grabGroup_shrinks : ∀ s g r, grabGroup s = some (g, r) → r.length < s.length := by
  intro s
  induction s with
  | nil => intro g r h; simp [grabGroup] at h
  | cons c cs ih =>
    intro g r h
    cases cs with
    | nil => simp [grabGroup] at h
    | cons c2 cs2 =>
      rw [grabGroup] at h
      split_ifs at h with hc hc2
      · injection h with h'
        cases h'
        simp only [List.length_cons]
        omega
      · rw [Option.map_eq_some'] at h
        obtain ⟨⟨g', r'⟩, hp, heq⟩ := h
        have hlt := ih g' r' hp
        cases heq
        simp only [List.length_cons] at hlt ⊢
        omega

/-- One step of the `re.findall` scan, with `n` a fuel bound on the
number of remaining characters (the scan consumes at least one character
per step, so `l.length` fuel always suffices; see `findGroupsF_fuel`). -/
def findGroupsF : ℕ → List Char → List (List Char)
  | 0, _ => []
  | _ + 1, [] => []
  | n + 1, c :: cs =>
    if c = '{' then
      match grabGroup cs with
      | some (g, r) => g :: findGroupsF n r
      | none => findGroupsF n cs
    else findGroupsF n cs

/-- Python `re.findall(r'\{([^}]+)\}', array_text)`: scan left to right; at a
`{` attempt `([^}]+)\}` and continue after a successful match, otherwise
advance one character. -/
def findGroups (l : List Char) : List (List Char) := findGroupsF l.length l

theorem findGroupsF_nil : ∀ n, findGroupsF n [] = [] := by
  intro n
  cases n <;> rfl

theorem findGroupsF_fuel : ∀ n m l, l.length ≤ n → l.length ≤ m →
    findGroupsF n l = findGroupsF m l := by
  intro n
  induction n with
  | zero =>
    intro m l hn _
    have : l = [] := List.length_eq_zero.mp (Nat.le_zero.mp hn)
    rw [this, findGroupsF_nil, findGroupsF_nil]
  | succ n ih =>
    intro m l hn hm
    cases l with
    | nil => rw [findGroupsF_nil, findGroupsF_nil]
    | cons c cs =>
      cases m with
      | zero => simp at hm
      | succ m' =>
        simp only [List.length_cons, Nat.add_le_add_iff_right] at hn hm
        rw [findGroupsF, findGroupsF]
        by_cases hc : c = '{'
        · rw [if_pos hc, if_pos hc]
          cases hg : grabGroup cs with
          | some p =>
            obtain ⟨g, r⟩ := p
            have hr := grabGroup_shrinks _ _ _ hg
            dsimp only
            rw [ih m' r (by omega) (by omega)]
          | none =>
            dsimp only
            rw [ih m' cs hn hm]
        · rw [if_neg hc, if_neg hc, ih m' cs hn hm]

/-- The error conditions of `extract_pca_matrix` (each a `ValueError` in
the source). -/
inductive ExtractError where
  | declNotFound : ExtractError
  | rowCountMismatch : ℕ → ExtractError
  | colCountMismatch : ℕ → ℕ → ExtractError
  | malformedNumericLiteral : ExtractError
deriving DecidableEq

/-- The `for i, row in enumerate(rows)` loop: parse each brace group,
fail on a malformed literal, then check the column count. -/
def parseRows (C : ℕ) : ℕ → List (List Char) → Except ExtractError (List (List ℚ))
  | _, [] => .ok []
  | i, row :: rest =>
    (parseRow (splitComma row)).elim (.error .malformedNumericLiteral) fun vs =>
      if vs.length ≠ C then .error (.colCountMismatch i vs.length)
      else (parseRows C (i + 1) rest).map (vs :: ·)

/-- The function `extract_pca_matrix`, with the expected dimensions (the module
constants `PCA_SIZE` and `DCT_SIZE` in the source) taken as the
parameters `R` and `C`. -/
def extract_pca_matrix (R C : ℕ) (text : List Char) : Except ExtractError (List (List ℚ)) :=
  (reSearch text).elim (.error .declNotFound) fun rest =>
    let rows := findGroups (braceScan 1 rest).dropLast
    if rows.length ≠ R then .error (.rowCountMismatch rows.length)
    else parseRows C 0 rows

/-- The literal of the spec's concrete scenario:
`pca_weight[2][2] = {{1.0,2.0},{3.0,4.0}};` -/
def scenarioLit : List Char :=
  ['p', 'c', 'a', '_', 'w', 'e', 'i', 'g', 'h', 't', '[', '2', ']', '[', '2', ']',
   ' ', '=', ' ', '{', '{', '1', '.', '0', ',', '2', '.', '0', '}', ',',
   '{', '3', '.', '0', ',', '4', '.', '0', '}', '}', ';']

example : extract_pca_matrix 2 2 scenarioLit = .ok [[1, 2], [3, 4]] := by
  with_unfolding_all rfl

example : extract_pca_matrix 2 3 scenarioLit = .error (.colCountMismatch 0 2) := by
  with_unfolding_all rfl

example : parseFloat ['-', '1', '.', '5', 'e', '2'] = some (-150) := by
  with_unfolding_all rfl

example : parseFloat ['2', '.', '5', 'e', '-', '1'] = some (1 / 4) := by
  with_unfolding_all rfl

example : parseFloat ['a', 'b'] = none := by with_unfolding_all rfl

/-! ## Well-formed literals: rendering and the general extraction lemmas -/

/-- A comma-separated row of tokens, as it appears inside one brace group. -/
def renderRow : List (List Char) → List Char
  | [] => []
  | [t] => t
  | t :: ts => t ++ ',' :: renderRow ts

/-- The initializer body: brace groups separated by commas. -/
def renderBody : List (List (List Char)) → List Char
  | [] => []
  | [r] => '{' :: (renderRow r ++ ['}'])
  | r :: rs => '{' :: (renderRow r ++ '}' :: ',' :: renderBody rs)

/-- A well-formed literal `pca_weight[d1][d2] = {body};`. -/
def renderLiteral (d1 d2 : List Char) (rows : List (List (List Char))) : List Char :=
  pcaLit ++ (d1 ++ (']' :: '[' ::
    (d2 ++ (']' :: ' ' :: '=' :: ' ' :: '{' :: (renderBody rows ++ ['}', ';'])))))

/-- Characters allowed in a numeric token of a well-formed literal: no
whitespace, comma or brace. -/
def plainChar (c : Char) : Prop :=
  pyIsSpace c = false ∧ c ≠ ',' ∧ c ≠ '{' ∧ c ≠ '}'

instance : DecidablePred plainChar := fun c =>
  inferInstanceAs (Decidable (pyIsSpace c = false ∧ c ≠ ',' ∧ c ≠ '{' ∧ c ≠ '}'))

/-- Characters allowed in a dimension field of the declaration. -/
def dimChar (c : Char) : Prop := c ≠ ']' ∧ c ≠ '\n'

instance : DecidablePred dimChar := fun c =>
  inferInstanceAs (Decidable (c ≠ ']' ∧ c ≠ '\n'))

theorem matchBr2_render (d r : List Char) (hd : ∀ c ∈ d, dimChar c) :
    matchBr2 (d ++ (']' :: ' ' :: '=' :: ' ' :: '{' :: r)) = some r := by
  induction d with
  | nil => rfl
  | cons a d' ih =>
    have ha := hd a (by simp)
    simp only [List.cons_append, matchBr2, if_neg ha.1, if_neg ha.2]
    exact ih fun c hc => hd c (by simp [hc])

theorem matchBr1_render (d1 d2 r : List Char) (h1 : ∀ c ∈ d1, dimChar c)
    (h2 : ∀ c ∈ d2, dimChar c) :
    matchBr1 (d1 ++ (']' :: '[' :: (d2 ++ (']' :: ' ' :: '=' :: ' ' :: '{' :: r)))) =
      some r := by
  induction d1 with
  | nil =>
    simp only [List.nil_append, matchBr1]
    rw [matchBr2_render d2 r h2]
    simp
  | cons a d' ih =>
    have ha := h1 a (by simp)
    simp only [List.cons_append, matchBr1, if_neg ha.1, if_neg ha.2]
    exact ih fun c hc => h1 c (by simp [hc])

theorem matchLit_append (pat X : List Char) : matchLit pat (pat ++ X) = matchBr1 X := by
  induction pat with
  | nil => rfl
  | cons p ps ih => simp [matchLit, ih]

theorem reSearch_lit (Y r : List Char) (hm : matchBr1 Y = some r) :
    reSearch (pcaLit ++ Y) = some r := by
  have hL : matchLit pcaLit
      ('p' :: 'c' :: 'a' :: '_' :: 'w' :: 'e' :: 'i' :: 'g' :: 'h' :: 't' :: '[' :: Y) =
      matchBr1 Y := by
    simpa [pcaLit] using matchLit_append pcaLit Y
  rw [pcaLit]
  simp only [List.cons_append, List.nil_append]
  rw [reSearch]
  simp only [hL, hm]

theorem reSearch_render (d1 d2 : List Char) (rows : List (List (List Char)))
    (h1 : ∀ c ∈ d1, dimChar c) (h2 : ∀ c ∈ d2, dimChar c) :
    reSearch (renderLiteral d1 d2 rows) = some (renderBody rows ++ ['}', ';']) := by
  rw [renderLiteral]
  exact reSearch_lit _ _ (matchBr1_render _ _ _ h1 h2)

/-- A well-formed token: nonempty, and free of whitespace, commas and
braces. -/
def goodTok (t : List Char) : Prop := t ≠ [] ∧ ∀ c ∈ t, plainChar c

/-- A well-formed brace group: at least one token, all of them good. -/
def goodRow (row : List (List Char)) : Prop := row ≠ [] ∧ ∀ t ∈ row, goodTok t

instance : DecidablePred goodTok := fun t =>
  inferInstanceAs (Decidable (t ≠ [] ∧ ∀ c ∈ t, plainChar c))

instance : DecidablePred goodRow := fun row =>
  inferInstanceAs (Decidable (row ≠ [] ∧ ∀ t ∈ row, goodTok t))

theorem mem_renderRow : ∀ (row : List (List Char)) (c : Char), c ∈ renderRow row →
    c = ',' ∨ ∃ t ∈ row, c ∈ t := by
  intro row
  induction row with
  | nil => intro c hc; simp [renderRow] at hc
  | cons t ts ih =>
    intro c hc
    cases ts with
    | nil =>
      simp only [renderRow] at hc
      exact Or.inr ⟨t, by simp, hc⟩
    | cons t2 ts2 =>
      simp only [renderRow, List.mem_append, List.mem_cons] at hc
      rcases hc with h | h | h
      · exact Or.inr ⟨t, by simp, h⟩
      · exact Or.inl h
      · rcases ih c h with h' | ⟨t', ht', hc'⟩
        · exact Or.inl h'
        · exact Or.inr ⟨t', by simp [ht'], hc'⟩

theorem renderRow_ne_nil (row : List (List Char)) (h : goodRow row) : renderRow row ≠ [] := by
  obtain ⟨hne, htok⟩ := h
  cases row with
  | nil => exact absurd rfl hne
  | cons t ts =>
    cases ts with
    | nil => exact (htok t (by simp)).1
    | cons t2 ts2 =>
      simp only [renderRow, ne_eq, List.append_eq_nil]
      intro hcontra
      exact absurd hcontra.2 (by simp)

theorem renderRow_noBrace (row : List (List Char)) (h : goodRow row) :
    ∀ c ∈ renderRow row, c ≠ '{' ∧ c ≠ '}' := by
  intro c hc
  rcases mem_renderRow row c hc with rfl | ⟨t, ht, hct⟩
  · exact ⟨by decide, by decide⟩
  · have := (h.2 t ht).2 c hct
    exact ⟨this.2.2.1, this.2.2.2⟩

/-- Depth evolution of the brace scan over a character sequence. -/
def depthAfter (d : ℤ) : List Char → ℤ
  | [] => d
  | c :: cs => depthAfter (if c = '{' then d + 1 else if c = '}' then d - 1 else d) cs

theorem braceScan_noBrace (s : List Char) (hs : ∀ c ∈ s, c ≠ '{' ∧ c ≠ '}') :
    ∀ (d : ℤ) (r : List Char), 0 < d → braceScan d (s ++ r) = s ++ braceScan d r := by
  induction s with
  | nil => intro d r _; rfl
  | cons c cs ih =>
    intro d r hd
    have hc := hs c (by simp)
    simp only [List.cons_append, braceScan, if_neg (by omega : ¬d ≤ 0), if_neg hc.1,
      if_neg hc.2]
    exact congrArg (c :: ·) (ih (fun x hx => hs x (by simp [hx])) d r hd)

theorem braceScan_open (X : List Char) : braceScan 1 ('{' :: X) = '{' :: braceScan 2 X := rfl

theorem braceScan_render (rows : List (List (List Char))) (h : ∀ row ∈ rows, goodRow row) :
    braceScan 1 (renderBody rows ++ ['}', ';']) = renderBody rows ++ ['}'] := by
  induction rows with
  | nil => rfl
  | cons r rs ih =>
    have hr := renderRow_noBrace r (h r (by simp))
    cases rs with
    | nil =>
      have h1 : renderBody [r] ++ ['}', ';'] =
          '{' :: (renderRow r ++ ('}' :: '}' :: [';'])) := by
        simp [renderBody]
      have h2 : braceScan 2 ('}' :: '}' :: [';']) = ['}', '}'] := rfl
      rw [h1, braceScan_open, braceScan_noBrace _ hr 2 _ (by omega), h2]
      simp [renderBody]
    | cons r2 rs2 =>
      have ih' := ih fun row hrow => h row (by simp [hrow])
      have h1 : renderBody (r :: r2 :: rs2) ++ ['}', ';'] =
          '{' :: (renderRow r ++ ('}' :: ',' :: (renderBody (r2 :: rs2) ++ ['}', ';']))) := by
        simp [renderBody]
      have h2 : ∀ Y : List Char, braceScan 2 ('}' :: ',' :: Y) = '}' :: ',' :: braceScan 1 Y :=
        fun Y => rfl
      rw [h1, braceScan_open, braceScan_noBrace _ hr 2 _ (by omega), h2, ih']
      simp [renderBody]

theorem grabGroup_render (g : List Char) (hg : ∀ c ∈ g, c ≠ '}') (hne : g ≠ []) :
    ∀ r, grabGroup (g ++ '}' :: r) = some (g, r) := by
  induction g with
  | nil => exact absurd rfl hne
  | cons a g' ih =>
    intro r
    have ha := hg a (by simp)
    cases g' with
    | nil =>
      show grabGroup (a :: '}' :: r) = _
      rw [grabGroup, if_neg ha, if_pos rfl]
    | cons b g2 =>
      have hb := hg b (by simp)
      have hrec := ih (fun c hc => hg c (by simp [hc])) (by simp) r
      show grabGroup (a :: ((b :: g2) ++ '}' :: r)) = _
      simp only [List.cons_append] at hrec ⊢
      rw [grabGroup, if_neg ha, if_neg hb, hrec]
      rfl

theorem findGroups_nil : findGroups [] = [] := rfl

theorem findGroups_skip (c : Char) (cs : List Char) (hc : c ≠ '{') :
    findGroups (c :: cs) = findGroups cs := by
  rw [findGroups, findGroups, List.length_cons, findGroupsF, if_neg hc]

theorem findGroups_open (cs g r : List Char) (hg : grabGroup cs = some (g, r)) :
    findGroups ('{' :: cs) = g :: findGroups r := by
  have hr := grabGroup_shrinks _ _ _ hg
  rw [findGroups, findGroups, List.length_cons, findGroupsF, if_pos rfl, hg]
  exact congrArg (g :: ·) (findGroupsF_fuel _ _ _ (by omega) (by omega))

theorem findGroups_render (rows : List (List (List Char))) (h : ∀ row ∈ rows, goodRow row) :
    findGroups (renderBody rows) = rows.map renderRow := by
  induction rows with
  | nil => exact findGroups_nil
  | cons r rs ih =>
    have hne := renderRow_ne_nil r (h r (by simp))
    have hnb : ∀ c ∈ renderRow r, c ≠ '}' :=
      fun c hc => (renderRow_noBrace r (h r (by simp)) c hc).2
    cases rs with
    | nil =>
      show findGroups ('{' :: (renderRow r ++ ['}'])) = _
      rw [show (renderRow r ++ ['}'] : List Char) = renderRow r ++ '}' :: [] from rfl]
      rw [findGroups_open _ _ _ (grabGroup_render _ hnb hne [])]
      simp [findGroups_nil]
    | cons r2 rs2 =>
      have ih' := ih fun row hrow => h row (by simp [hrow])
      show findGroups ('{' :: (renderRow r ++ '}' :: ',' :: renderBody (r2 :: rs2))) = _
      rw [findGroups_open _ _ _ (grabGroup_render _ hnb hne (',' :: renderBody (r2 :: rs2)))]
      rw [findGroups_skip _ _ (by decide), ih']
      rfl

/-! ## Splitting, stripping and parsing well-formed rows -/

theorem splitComma_noComma (t : List Char) (h : ∀ c ∈ t, c ≠ ',') : splitComma t = [t] := by
  induction t with
  | nil => rfl
  | cons c cs ih =>
    have hc := h c (by simp)
    rw [splitComma, if_neg hc, ih fun x hx => h x (by simp [hx])]
    rfl

theorem splitComma_append (t X : List Char) (h : ∀ c ∈ t, c ≠ ',') :
    splitComma (t ++ ',' :: X) = t :: splitComma X := by
  induction t with
  | nil => rw [List.nil_append, splitComma, if_pos rfl]
  | cons c cs ih =>
    have hc := h c (by simp)
    rw [List.cons_append, splitComma, if_neg hc, ih fun x hx => h x (by simp [hx])]
    rfl

theorem splitComma_renderRow (toks : List (List Char)) (h : ∀ t ∈ toks, ∀ c ∈ t, c ≠ ',')
    (hne : toks ≠ []) : splitComma (renderRow toks) = toks := by
  induction toks with
  | nil => exact absurd rfl hne
  | cons t ts ih =>
    cases ts with
    | nil => exact splitComma_noComma t (h t (by simp))
    | cons t2 ts2 =>
      show splitComma (t ++ ',' :: renderRow (t2 :: ts2)) = _
      rw [splitComma_append t _ (h t (by simp))]
      rw [ih (fun x hx c hc => h x (by simp [hx]) c hc) (by simp)]

theorem dropWhile_no (p : Char → Bool) (l : List Char) (h : ∀ c ∈ l, p c = false) :
    l.dropWhile p = l := by
  cases l with
  | nil => rfl
  | cons c cs => simp [List.dropWhile_cons, h c (by simp)]

theorem pyStrip_id (t : List Char) (h : ∀ c ∈ t, pyIsSpace c = false) : pyStrip t = t := by
  show ((t.dropWhile pyIsSpace).reverse.dropWhile pyIsSpace).reverse = t
  rw [dropWhile_no _ _ h, dropWhile_no _ _ fun c hc => h c (List.mem_reverse.mp hc),
    List.reverse_reverse]

theorem parseRow_tokens : ∀ (toks : List (List Char)) (vals : List ℚ),
    toks.map parseFloat = vals.map some →
    (∀ t ∈ toks, t ≠ [] ∧ ∀ c ∈ t, pyIsSpace c = false) →
    parseRow toks = some vals := by
  intro toks
  induction toks with
  | nil =>
    intro vals hmap _
    cases vals with
    | nil => rfl
    | cons v vs => simp at hmap
  | cons t ts ih =>
    intro vals hmap hgood
    cases vals with
    | nil => simp at hmap
    | cons v vs =>
      simp only [List.map_cons, List.cons.injEq] at hmap
      obtain ⟨hv, hrest⟩ := hmap
      have hg := hgood t (by simp)
      have ht := pyStrip_id t hg.2
      rw [parseRow, ht, if_neg hg.1, hv, ih vs hrest fun x hx => hgood x (by simp [hx])]
      rfl

theorem parseRows_render (C : ℕ) : ∀ (i : ℕ) (toks : List (List (List Char)))
    (vals : List (List ℚ)),
    (∀ row ∈ toks, goodRow row) → (∀ row ∈ toks, row.length = C) →
    toks.map (fun row => row.map parseFloat) = vals.map (fun row => row.map some) →
    parseRows C i (toks.map renderRow) = .ok vals := by
  intro i toks
  induction toks generalizing i with
  | nil =>
    intro vals _ _ hv
    cases vals with
    | nil => rfl
    | cons v vs => simp at hv
  | cons row rows ih =>
    intro vals hgood hlen hv
    cases vals with
    | nil => simp at hv
    | cons v vs =>
      simp only [List.map_cons, List.cons.injEq] at hv
      obtain ⟨hv1, hv2⟩ := hv
      have hrowgood := hgood row (by simp)
      have hvlen : v.length = C := by
        have hlv := congrArg List.length hv1
        simp only [List.length_map] at hlv
        rw [← hlv]
        exact hlen row (by simp)
      have hnc : ∀ t ∈ row, ∀ c ∈ t, c ≠ ',' :=
        fun t ht c hc => ((hrowgood.2 t ht).2 c hc).2.1
      have hpr : parseRow (splitComma (renderRow row)) = some v := by
        rw [splitComma_renderRow row hnc hrowgood.1]
        exact parseRow_tokens row v hv1 fun t ht =>
          ⟨(hrowgood.2 t ht).1, fun c hc => ((hrowgood.2 t ht).2 c hc).1⟩
      rw [List.map_cons, parseRows, hpr]
      show (if v.length ≠ C then Except.error (ExtractError.colCountMismatch i v.length)
        else (parseRows C (i + 1) (rows.map renderRow)).map (v :: ·)) = _
      rw [if_neg (by simp [hvlen]),
        ih (i + 1) vs (fun x hx => hgood x (by simp [hx])) (fun x hx => hlen x (by simp [hx])) hv2]
      rfl

theorem extract_render_ok (R C : ℕ) (d1 d2 : List Char) (toks : List (List (List Char)))
    (vals : List (List ℚ))
    (hd1 : ∀ c ∈ d1, dimChar c) (hd2 : ∀ c ∈ d2, dimChar c)
    (htoks : ∀ row ∈ toks, goodRow row)
    (hR : toks.length = R)
    (hC : ∀ row ∈ toks, row.length = C)
    (hvals : toks.map (fun row => row.map parseFloat) = vals.map (fun row => row.map some)) :
    extract_pca_matrix R C (renderLiteral d1 d2 toks) = .ok vals := by
  have hsearch := reSearch_render d1 d2 toks hd1 hd2
  have hscan := braceScan_render toks htoks
  have hgroups := findGroups_render toks htoks
  rw [extract_pca_matrix, hsearch]
  show (let rows := findGroups (braceScan 1 (renderBody toks ++ ['}', ';'])).dropLast
    if rows.length ≠ R then Except.error (ExtractError.rowCountMismatch rows.length)
    else parseRows C 0 rows) = _
  rw [hscan]
  rw [show (renderBody toks ++ ['}']).dropLast = renderBody toks from by simp]
  rw [hgroups]
  show (if (toks.map renderRow).length ≠ R then
      Except.error (ExtractError.rowCountMismatch (toks.map renderRow).length)
    else parseRows C 0 (toks.map renderRow)) = _
  rw [if_neg (by simp [hR])]
  exact parseRows_render C 0 toks vals htoks hC hvals

theorem vals_cols (C : ℕ) : ∀ (toks : List (List (List Char))) (vals : List (List ℚ)),
    toks.map (fun row => row.map parseFloat) = vals.map (fun row => row.map some) →
    (∀ row ∈ toks, row.length = C) → ∀ v ∈ vals, v.length = C := by
  intro toks
  induction toks with
  | nil =>
    intro vals hv _
    cases vals with
    | nil => simp
    | cons v vs => simp at hv
  | cons row rows ih =>
    intro vals hv hC v hvmem
    cases vals with
    | nil => simp at hvmem
    | cons v0 vs =>
      simp only [List.map_cons, List.cons.injEq] at hv
      obtain ⟨hv1, hv2⟩ := hv
      rcases List.mem_cons.mp hvmem with rfl | hmem
      · have hlv := congrArg List.length hv1
        simp only [List.length_map] at hlv
        rw [← hlv]
        exact hC row (by simp)
      · exact ih vs hv2 (fun x hx => hC x (by simp [hx])) v hmem

theorem vals_rows : ∀ (toks : List (List (List Char))) (vals : List (List ℚ)),
    toks.map (fun row => row.map parseFloat) = vals.map (fun row => row.map some) →
    vals.length = toks.length := by
  intro toks vals hv
  have := congrArg List.length hv
  simpa using this.symm

/-- C3: for every well-formed literal containing the `pca_weight`
declaration with exactly `R` top-level brace groups of `C` numeric
tokens each, extraction with expected dimensions `R`, `C` succeeds and
returns the `R × C` matrix of the token values in textual order. -/
theorem c3_wellformed_extraction (R C : ℕ) (d1 d2 : List Char)
    (toks : List (List (List Char))) (vals : List (List ℚ))
    (hd1 : ∀ c ∈ d1, dimChar c) (hd2 : ∀ c ∈ d2, dimChar c)
    (htoks : ∀ row ∈ toks, goodRow row)
    (hR : toks.length = R)
    (hC : ∀ row ∈ toks, row.length = C)
    (hvals : toks.map (fun row => row.map parseFloat) = vals.map (fun row => row.map some)) :
    extract_pca_matrix R C (renderLiteral d1 d2 toks) = .ok vals ∧
      vals.length = R ∧ ∀ v ∈ vals, v.length = C :=
  ⟨extract_render_ok R C d1 d2 toks vals hd1 hd2 htoks hR hC hvals,
   by rw [vals_rows toks vals hvals, hR],
   vals_cols C toks vals hvals hC⟩

/-- Witness for C3, the spec's concrete scenario:
`pca_weight[2][2] = {{1.0,2.0},{3.0,4.0}};` with expected dimensions
2 × 2 yields `[[1.0, 2.0], [3.0, 4.0]]`. -/
theorem c3_witness :
    extract_pca_matrix 2 2 scenarioLit = .ok [[1, 2], [3, 4]] ∧
      ([[1, 2], [3, 4]] : List (List ℚ)).length = 2 ∧
      ∀ v ∈ ([[1, 2], [3, 4]] : List (List ℚ)), v.length = 2 := by
  have h := c3_wellformed_extraction 2 2 ['2'] ['2']
    [[['1', '.', '0'], ['2', '.', '0']], [['3', '.', '0'], ['4', '.', '0']]]
    [[1, 2], [3, 4]]
    (by decide) (by decide) (by decide) (by decide) (by decide)
    (by with_unfolding_all rfl)
  rwa [show renderLiteral ['2'] ['2']
    [[['1', '.', '0'], ['2', '.', '0']], [['3', '.', '0'], ['4', '.', '0']]] = scenarioLit
    from by decide] at h

/-- The number of values the row loop obtains from one brace group
(`len(values)` in the source). -/
def rowValCount (row : List Char) : ℕ := ((parseRow (splitComma row)).getD []).length

theorem parseRows_colMismatch (C : ℕ) : ∀ (i : ℕ) (rows : List (List Char)),
    (∀ row ∈ rows, (parseRow (splitComma row)).isSome) →
    (∃ row ∈ rows, rowValCount row ≠ C) →
    ∃ j got, parseRows C i rows = .error (.colCountMismatch j got) ∧ got ≠ C := by
  intro i rows
  induction rows generalizing i with
  | nil =>
    intro _ hex
    obtain ⟨row, hmem, _⟩ := hex
    simp at hmem
  | cons row rest ih =>
    intro hsome hex
    obtain ⟨vs, hvs⟩ := Option.isSome_iff_exists.mp (hsome row (by simp))
    by_cases hlen : vs.length ≠ C
    · refine ⟨i, vs.length, ?_, hlen⟩
      rw [parseRows, hvs]
      show (if vs.length ≠ C then Except.error (ExtractError.colCountMismatch i vs.length)
        else (parseRows C (i + 1) rest).map (vs :: ·)) = _
      rw [if_pos hlen]
    · push_neg at hlen
      have hex' : ∃ r ∈ rest, rowValCount r ≠ C := by
        obtain ⟨r, hmem, hr⟩ := hex
        rcases List.mem_cons.mp hmem with rfl | hmem'
        · exfalso
          apply hr
          rw [rowValCount, hvs]
          simpa using hlen
        · exact ⟨r, hmem', hr⟩
      obtain ⟨j, got, hj, hgot⟩ := ih (i + 1) (fun r hr => hsome r (by simp [hr])) hex'
      refine ⟨j, got, ?_, hgot⟩
      rw [parseRows, hvs]
      show (if vs.length ≠ C then Except.error (ExtractError.colCountMismatch i vs.length)
        else (parseRows C (i + 1) rest).map (vs :: ·)) = _
      rw [if_neg (by simp [hlen]), hj]
      rfl

/-- C4: extraction fails with a row-count mismatch when the number of
extracted brace groups differs from the expected row count, and with a
column-count mismatch when the groups match but some group yields a
value count different from the expected column count. -/
theorem c4_shape_mismatch :
    (∀ (R C : ℕ) (text rest : List Char), reSearch text = some rest →
      (findGroups (braceScan 1 rest).dropLast).length ≠ R →
      extract_pca_matrix R C text =
        .error (.rowCountMismatch (findGroups (braceScan 1 rest).dropLast).length)) ∧
    (∀ (R C : ℕ) (text rest : List Char), reSearch text = some rest →
      (findGroups (braceScan 1 rest).dropLast).length = R →
      (∀ row ∈ findGroups (braceScan 1 rest).dropLast, (parseRow (splitComma row)).isSome) →
      (∃ row ∈ findGroups (braceScan 1 rest).dropLast, rowValCount row ≠ C) →
      ∃ i got, extract_pca_matrix R C text = .error (.colCountMismatch i got) ∧ got ≠ C) := by
  constructor
  · intro R C text rest hsearch hne
    rw [extract_pca_matrix, hsearch]
    show (let rows := findGroups (braceScan 1 rest).dropLast
      if rows.length ≠ R then Except.error (ExtractError.rowCountMismatch rows.length)
      else parseRows C 0 rows) = _
    rw [if_pos hne]
  · intro R C text rest hsearch hR hsome hex
    obtain ⟨j, got, hj, hgot⟩ := parseRows_colMismatch C 0 _ hsome hex
    refine ⟨j, got, ?_, hgot⟩
    rw [extract_pca_matrix, hsearch]
    show (let rows := findGroups (braceScan 1 rest).dropLast
      if rows.length ≠ R then Except.error (ExtractError.rowCountMismatch rows.length)
      else parseRows C 0 rows) = _
    rw [if_neg (by simp [hR]), hj]

/-- The remainder of the scenario literal after the matched `{`. -/
def scenarioRest : List Char :=
  ['{', '1', '.', '0', ',', '2', '.', '0', '}', ',',
   '{', '3', '.', '0', ',', '4', '.', '0', '}', '}', ';']

/-- Witness for C4, the spec's concrete scenario: the 2×2 literal with
expected `cols = 3` fails with a column-count mismatch. -/
theorem c4_witness : ∃ i got,
    extract_pca_matrix 2 3 scenarioLit = .error (.colCountMismatch i got) ∧ got ≠ 3 :=
  c4_shape_mismatch.2 2 3 scenarioLit scenarioRest
    (by with_unfolding_all rfl)
    (by with_unfolding_all rfl)
    (of_decide_eq_true (by with_unfolding_all rfl))
    ⟨['1', '.', '0', ',', '2', '.', '0'],
      of_decide_eq_true (by with_unfolding_all rfl),
      of_decide_eq_true (by with_unfolding_all rfl)⟩

/-! ## C5: the accepted numeric grammar and malformed-literal failures -/

/-- One or more digits, spec grammar. -/
def specExpDigits (ds : List Char) : Bool := !ds.isEmpty && ds.all isDigit

/-- After `e`/`E`: an optional sign and one or more digits. -/
def specExpAfterE : List Char → Bool
  | [] => false
  | c2 :: r2 =>
    if c2 = '+' then specExpDigits r2
    else if c2 = '-' then specExpDigits r2
    else specExpDigits (c2 :: r2)

/-- Spec grammar for the optional exponent: empty, or `e`/`E`, an
optional sign, and one or more digits.  Written from the spec's words
for comparison with `parseExp10`. -/
def specExpTail : List Char → Bool
  | [] => true
  | c :: r => (c == 'e' || c == 'E') && specExpAfterE r

/-- Spec grammar for the unsigned mantissa: digits with an optional
point and optional fractional digits, at least one digit present. -/
def specMantissa (s : List Char) : Bool :=
  let ds := s.takeWhile isDigit
  let r1 := s.dropWhile isDigit
  if r1 ≠ [] ∧ r1.headI = '.' then
    (!(ds.isEmpty && (r1.tail.takeWhile isDigit).isEmpty))
      && specExpTail (r1.tail.dropWhile isDigit)
  else !ds.isEmpty && specExpTail r1

/-- Spec grammar for a decimal literal: optional sign, then mantissa
with optional exponent. -/
def specDecimal (s : List Char) : Bool :=
  if s ≠ [] ∧ (s.headI = '+' ∨ s.headI = '-') then specMantissa s.tail
  else specMantissa s

theorem expDigits_isSome (m : ℚ) (pos : Bool) (ds : List Char)
    (h : specExpDigits ds = true) : (expDigits m pos ds).isSome := by
  rw [specExpDigits, Bool.and_eq_true] at h
  rw [expDigits, if_pos ⟨by simpa using h.1, h.2⟩]
  rfl

theorem parseExp10_isSome (r : List Char) (m : ℚ) (h : specExpTail r = true) :
    (parseExp10 m r).isSome := by
  cases r with
  | nil => rfl
  | cons c rest =>
    rw [specExpTail, Bool.and_eq_true] at h
    obtain ⟨hce, htail⟩ := h
    have hce' : c = 'e' ∨ c = 'E' := by
      rcases Bool.or_eq_true_iff.mp hce with h' | h'
      · exact Or.inl (by simpa using h')
      · exact Or.inr (by simpa using h')
    rw [parseExp10, if_pos hce']
    cases rest with
    | nil => cases htail
    | cons c2 r2 =>
      rw [specExpAfterE] at htail
      rw [parseExpAfterE]
      by_cases h2 : c2 = '+'
      · rw [if_pos h2] at htail ⊢
        exact expDigits_isSome _ _ _ htail
      · rw [if_neg h2] at htail ⊢
        by_cases h3 : c2 = '-'
        · rw [if_pos h3] at htail ⊢
          exact expDigits_isSome _ _ _ htail
        · rw [if_neg h3] at htail ⊢
          exact expDigits_isSome _ _ _ htail

theorem parseUnsignedFloat_isSome (s : List Char) (h : specMantissa s = true) :
    (parseUnsignedFloat s).isSome := by
  rw [specMantissa] at h
  rw [parseUnsignedFloat]
  by_cases hdot : s.dropWhile isDigit ≠ [] ∧ (s.dropWhile isDigit).headI = '.'
  · rw [if_pos hdot] at h ⊢
    rw [Bool.and_eq_true] at h
    obtain ⟨hne, hexp⟩ := h
    rw [if_neg (by
      intro hcontra
      rw [hcontra.1, hcontra.2] at hne
      simp at hne)]
    exact parseExp10_isSome _ _ hexp
  · rw [if_neg hdot] at h ⊢
    rw [Bool.and_eq_true] at h
    obtain ⟨hne, hexp⟩ := h
    rw [if_neg (by simpa using hne)]
    exact parseExp10_isSome _ _ hexp

theorem parseFloat_accepts (t : List Char) (h : specDecimal t = true) :
    (parseFloat t).isSome := by
  rw [specDecimal] at h
  rw [parseFloat]
  by_cases hs : t ≠ [] ∧ (t.headI = '+' ∨ t.headI = '-')
  · rw [if_pos hs] at h
    by_cases hplus : t ≠ [] ∧ t.headI = '+'
    · rw [if_pos hplus]
      exact parseUnsignedFloat_isSome _ h
    · rw [if_neg hplus]
      have hminus : t ≠ [] ∧ t.headI = '-' := by
        rcases hs.2 with h' | h'
        · exact absurd ⟨hs.1, h'⟩ hplus
        · exact ⟨hs.1, h'⟩
      rw [if_pos hminus]
      simpa using parseUnsignedFloat_isSome _ h
  · rw [if_neg hs] at h
    rw [if_neg (by
      intro hcontra
      exact hs ⟨hcontra.1, Or.inl hcontra.2⟩)]
    rw [if_neg (by
      intro hcontra
      exact hs ⟨hcontra.1, Or.inr hcontra.2⟩)]
    exact parseUnsignedFloat_isSome _ h

theorem parseRow_malformed : ∀ segs : List (List Char),
    (∃ seg ∈ segs, pyStrip seg ≠ [] ∧ parseFloat (pyStrip seg) = none) →
    parseRow segs = none := by
  intro segs
  induction segs with
  | nil =>
    intro hex
    obtain ⟨seg, hmem, _⟩ := hex
    simp at hmem
  | cons seg rest ih =>
    intro hex
    rw [parseRow]
    by_cases h0 : pyStrip seg = []
    · rw [if_pos h0]
      apply ih
      obtain ⟨s, hmem, hs⟩ := hex
      rcases List.mem_cons.mp hmem with rfl | hmem'
      · exact absurd h0 hs.1
      · exact ⟨s, hmem', hs⟩
    · rw [if_neg h0]
      cases hpf : parseFloat (pyStrip seg) with
      | none => rfl
      | some v =>
        obtain ⟨s, hmem, hs⟩ := hex
        rcases List.mem_cons.mp hmem with rfl | hmem'
        · rw [hpf] at hs
          cases hs.2
        · rw [ih ⟨s, hmem', hs⟩]
          rfl

theorem parseRows_malformed (C : ℕ) : ∀ (pre : List (List Char)) (i : ℕ)
    (bad : List Char) (rest2 : List (List Char)),
    (∀ row ∈ pre, ∃ vs, parseRow (splitComma row) = some vs ∧ vs.length = C) →
    parseRow (splitComma bad) = none →
    parseRows C i (pre ++ bad :: rest2) = .error .malformedNumericLiteral := by
  intro pre
  induction pre with
  | nil =>
    intro i bad rest2 _ hbad
    rw [List.nil_append, parseRows, hbad]
    rfl
  | cons p pre' ih =>
    intro i bad rest2 hgood hbad
    obtain ⟨vs, hvs, hlen⟩ := hgood p (by simp)
    rw [List.cons_append, parseRows, hvs]
    show (if vs.length ≠ C then Except.error (ExtractError.colCountMismatch i vs.length)
      else (parseRows C (i + 1) (pre' ++ bad :: rest2)).map (vs :: ·)) = _
    rw [if_neg (by simp [hlen]), ih (i + 1) bad rest2 (fun r hr => hgood r (by simp [hr])) hbad]
    rfl

/-- C5: numeric parsing accepts decimal literals with an optional sign
and optional exponent, and a token that fails to parse as a real number
makes extraction fail with the malformed-numeric-literal error. -/
theorem c5_numeric_parsing :
    (∀ t : List Char, specDecimal t = true → (parseFloat t).isSome) ∧
    (∀ (R C : ℕ) (text rest bad : List Char) (pre rest2 : List (List Char)),
      reSearch text = some rest →
      findGroups (braceScan 1 rest).dropLast = pre ++ bad :: rest2 →
      (pre ++ bad :: rest2).length = R →
      (∀ row ∈ pre, ∃ vs, parseRow (splitComma row) = some vs ∧ vs.length = C) →
      (∃ seg ∈ splitComma bad, pyStrip seg ≠ [] ∧ parseFloat (pyStrip seg) = none) →
      extract_pca_matrix R C text = .error .malformedNumericLiteral) := by
  refine ⟨parseFloat_accepts, ?_⟩
  intro R C text rest bad pre rest2 hsearch hrows hR hgood hbadtok
  rw [extract_pca_matrix, hsearch]
  show (let rows := findGroups (braceScan 1 rest).dropLast
    if rows.length ≠ R then Except.error (ExtractError.rowCountMismatch rows.length)
    else parseRows C 0 rows) = _
  rw [hrows, if_neg (by simp [hR])]
  exact parseRows_malformed C pre 0 bad rest2 hgood (parseRow_malformed _ hbadtok)

/-- A literal whose single token is not numeric:
`pca_weight[1][1] = {{abc}};` -/
def badLit : List Char :=
  ['p', 'c', 'a', '_', 'w', 'e', 'i', 'g', 'h', 't', '[', '1', ']', '[', '1', ']',
   ' ', '=', ' ', '{', '{', 'a', 'b', 'c', '}', '}', ';']

/-- Witness for C5: `-1.5e2` is accepted, and extraction of a literal
containing the token `abc` fails with the malformed-numeric-literal
error. -/
theorem c5_witness :
    (parseFloat ['-', '1', '.', '5', 'e', '2']).isSome ∧
    extract_pca_matrix 1 1 badLit = .error .malformedNumericLiteral :=
  ⟨c5_numeric_parsing.1 ['-', '1', '.', '5', 'e', '2'] (by decide),
   c5_numeric_parsing.2 1 1 badLit
     ['{', 'a', 'b', 'c', '}', '}', ';'] ['a', 'b', 'c'] [] []
     (by with_unfolding_all rfl)
     (by with_unfolding_all rfl)
     (by with_unfolding_all rfl)
     (by intro row hrow; simp at hrow)
     ⟨['a', 'b', 'c'], of_decide_eq_true (by with_unfolding_all rfl),
       by decide, by with_unfolding_all rfl⟩⟩

/-! ## C9: empty comma segments are silently discarded -/

/-- A literal whose single row has leading, repeated and trailing
commas: `pca_weight[1][2] = {{,1.0,,2.0,}};` -/
def commaLit : List Char :=
  ['p', 'c', 'a', '_', 'w', 'e', 'i', 'g', 'h', 't', '[', '1', ']', '[', '2', ']',
   ' ', '=', ' ', '{', '{', ',', '1', '.', '0', ',', ',', '2', '.', '0', ',', '}', '}', ';']

/-- C9: segments of a row that strip to the empty string are skipped
before parsing and before the column count is computed, so a row with
extra commas but exactly `cols` nonempty numeric tokens is accepted. -/
theorem c9_empty_segments :
    (∀ segs : List (List Char),
      parseRow segs = parseRow (segs.filter fun s => !(pyStrip s).isEmpty)) ∧
    extract_pca_matrix 1 2 commaLit = .ok [[1, 2]] := by
  constructor
  · intro segs
    induction segs with
    | nil => rfl
    | cons seg rest ih =>
      by_cases h : pyStrip seg = []
      · rw [parseRow, if_pos h, ih]
        simp [List.filter_cons, h]
      · have hfc : (seg :: rest).filter (fun s => !(pyStrip s).isEmpty) =
            seg :: rest.filter (fun s => !(pyStrip s).isEmpty) := by
          simp [List.filter_cons, h]
        rw [parseRow, if_neg h, hfc, parseRow, if_neg h]
        simp only [ih]
  · with_unfolding_all rfl

/-! ## C10: the brace scan is bounded and has no unbalanced-brace error -/

/-- An unbalanced literal: `pca_weight[47][257] = {{1.0,2.0` with no
closing braces. -/
def unbalLit : List Char :=
  ['p', 'c', 'a', '_', 'w', 'e', 'i', 'g', 'h', 't', '[', '4', '7', ']', '[', '2', '5', '7', ']',
   ' ', '=', ' ', '{', '{', '1', '.', '0', ',', '2', '.', '0']

theorem braceScan_length : ∀ (t : List Char) (d : ℤ), (braceScan d t).length ≤ t.length := by
  intro t
  induction t with
  | nil => intro d; simp [braceScan]
  | cons c cs ih =>
    intro d
    rw [braceScan]
    by_cases hd : d ≤ 0
    · rw [if_pos hd]
      simp
    · rw [if_neg hd]
      simp only [List.length_cons, Nat.add_le_add_iff_right]
      exact ih _

theorem braceScan_keeps : ∀ (t : List Char) (d : ℤ), 0 < d →
    (∀ i, i < t.length → 0 < depthAfter d (t.take (i + 1))) →
    braceScan d t = t := by
  intro t
  induction t with
  | nil => intro d _ _; rfl
  | cons c cs ih =>
    intro d hd h
    rw [braceScan, if_neg (by omega)]
    have hd' : 0 < (if c = '{' then d + 1 else if c = '}' then d - 1 else d) := by
      have := h 0 (by simp)
      simpa [depthAfter] using this
    have h' : ∀ i, i < cs.length →
        0 < depthAfter (if c = '{' then d + 1 else if c = '}' then d - 1 else d)
          (cs.take (i + 1)) := by
      intro i hi
      have := h (i + 1) (by simp; omega)
      simpa [depthAfter] using this
    show c :: braceScan (if c = '{' then d + 1 else if c = '}' then d - 1 else d) cs = c :: cs
    rw [ih _ hd' h']

/-- C10: the brace scan consumes at most one character per step (its
output never exceeds the input), when the depth counter never returns to
zero the whole remaining text is consumed so the body is the remaining
text minus its last character, and an unbalanced literal produces no
dedicated error — extraction fails only later with a shape mismatch. -/
theorem c10_brace_scan :
    (∀ (d : ℤ) (t : List Char), (braceScan d t).length ≤ t.length) ∧
    (∀ t : List Char, (∀ i, i < t.length → 0 < depthAfter 1 (t.take (i + 1))) →
      braceScan 1 t = t ∧ (braceScan 1 t).dropLast = t.dropLast) ∧
    extract_pca_matrix 47 257 unbalLit = .error (.rowCountMismatch 0) := by
  refine ⟨fun d t => braceScan_length t d, fun t h => ?_, by with_unfolding_all rfl⟩
  have := braceScan_keeps t 1 (by omega) h
  exact ⟨this, by rw [this]⟩

/-- Witness for C10 at a concrete unbalanced remainder: the scan keeps
the whole text `{1.0`. -/
theorem c10_witness :
    braceScan 1 ['{', '1', '.', '0'] = ['{', '1', '.', '0'] ∧
      (braceScan 1 ['{', '1', '.', '0']).dropLast = (['{', '1', '.', '0'] : List Char).dropLast :=
  c10_brace_scan.2.1 ['{', '1', '.', '0'] (by decide)


/-! ## C6: the binary writer (`save_matrix_binary`) -/

/-- Python `struct.pack('<f', v)`: the four little-endian bytes of the 32-bit
word `w` (least significant byte first; 65536 = 256², 16777216 = 256³). -/
def packLE (w : ℕ) : List ℕ :=
  [w % 256, w / 256 % 256, w / 65536 % 256, w / 16777216 % 256]

/-- The function `save_matrix_binary`: iterate rows, then columns, appending the four
bytes of each value.  Matrix entries are given by their IEEE-754
binary32 bit patterns: on a value representable in single precision
`struct.pack('<f', v)` writes exactly the bytes of its bit pattern. -/
def save_matrix_binary (matrix : List (List ℕ)) (rows cols : ℕ) : List ℕ :=
  ((List.range rows).map fun r =>
    (((List.range cols).map fun c => packLE ((matrix.getD r []).getD c 0))).flatten).flatten

/-- Decode a byte stream as consecutive little-endian 32-bit words. -/
def unpackWords : List ℕ → List ℕ
  | b0 :: b1 :: b2 :: b3 :: rest =>
    (b0 + 256 * b1 + 65536 * b2 + 16777216 * b3) :: unpackWords rest
  | _ => []

/-- The IEEE-754 binary32 value of a finite bit pattern, as an exact
rational: sign bit, biased exponent `E`, fraction `f`; subnormals scale
by 2⁻¹⁴⁹ and normals carry the implicit leading bit and scale by
2^(E−150). -/
def float32Val (w : ℕ) : ℚ :=
  if w / 2 ^ 31 % 2 = 1 then
    -(if w / 2 ^ 23 % 256 = 0 then ((w % 2 ^ 23 : ℕ) : ℚ) / 2 ^ 149
      else ((2 ^ 23 + w % 2 ^ 23 : ℕ) : ℚ) * 2 ^ (w / 2 ^ 23 % 256) / 2 ^ 150)
  else
    (if w / 2 ^ 23 % 256 = 0 then ((w % 2 ^ 23 : ℕ) : ℚ) / 2 ^ 149
      else ((2 ^ 23 + w % 2 ^ 23 : ℕ) : ℚ) * 2 ^ (w / 2 ^ 23 % 256) / 2 ^ 150)

/-- Regroup a flat row-major list into `rows` rows of `cols` entries. -/
def unflatten (cols : ℕ) : ℕ → List ℕ → List (List ℕ)
  | 0, _ => []
  | r + 1, l => l.take cols :: unflatten cols r (l.drop cols)

theorem unpack_pack (w : ℕ) (hw : w < 2 ^ 32) (rest : List ℕ) :
    unpackWords (packLE w ++ rest) = w :: unpackWords rest := by
  show unpackWords (w % 256 :: w / 256 % 256 :: w / 65536 % 256 :: w / 16777216 % 256 :: rest) = _
  rw [unpackWords]
  congr 1
  omega

theorem unpack_flatten : ∀ ws : List ℕ, (∀ w ∈ ws, w < 2 ^ 32) →
    unpackWords ((ws.map packLE).flatten) = ws := by
  intro ws
  induction ws with
  | nil => intro _; rfl
  | cons w ws' ih =>
    intro h
    rw [List.map_cons, List.flatten_cons, unpack_pack w (h w (by simp)),
      ih fun x hx => h x (by simp [hx])]

theorem range_getD_pack (row : List ℕ) :
    (List.range row.length).map (fun c => packLE (row.getD c 0)) = row.map packLE := by
  apply List.ext_getElem
  · simp
  · intro i h1 h2
    have hi : i < row.length := by simpa using h2
    simp only [List.getElem_map, List.getElem_range]
    rw [List.getD_eq_getElem row 0 hi]

theorem flatten_map_pack : ∀ M : List (List ℕ),
    (M.map fun row => (row.map packLE).flatten).flatten = ((M.flatten).map packLE).flatten := by
  intro M
  induction M with
  | nil => rfl
  | cons row rest ih =>
    rw [List.map_cons, List.flatten_cons, List.flatten_cons, List.map_append,
      List.flatten_append, ih]

theorem save_eq_flatten (matrix : List (List ℕ)) (rows cols : ℕ)
    (hr : matrix.length = rows) (hc : ∀ row ∈ matrix, row.length = cols) :
    save_matrix_binary matrix rows cols = ((matrix.flatten).map packLE).flatten := by
  subst hr
  rw [save_matrix_binary]
  have houter : (List.range matrix.length).map
      (fun r => (((List.range cols).map fun c => packLE ((matrix.getD r []).getD c 0))).flatten) =
      matrix.map fun row => (row.map packLE).flatten := by
    apply List.ext_getElem
    · simp
    · intro i h1 h2
      have hi : i < matrix.length := by simpa using h2
      simp only [List.getElem_map, List.getElem_range]
      rw [List.getD_eq_getElem matrix [] hi]
      rw [show cols = matrix[i].length from (hc matrix[i] (matrix.getElem_mem hi)).symm]
      rw [range_getD_pack]
  rw [houter, flatten_map_pack]

theorem flatten_pack_length : ∀ ws : List ℕ, ((ws.map packLE).flatten).length = ws.length * 4 := by
  intro ws
  induction ws with
  | nil => rfl
  | cons w ws' ih =>
    rw [List.map_cons, List.flatten_cons, List.length_append, ih]
    show 4 + ws'.length * 4 = (ws'.length + 1) * 4
    ring

theorem flatten_cols_length : ∀ (M : List (List ℕ)) (cols : ℕ),
    (∀ row ∈ M, row.length = cols) → M.flatten.length = M.length * cols := by
  intro M
  induction M with
  | nil => intro cols _; simp
  | cons row rest ih =>
    intro cols hc
    rw [List.flatten_cons, List.length_append, hc row (by simp),
      ih cols fun r hr => hc r (by simp [hr]), List.length_cons]
    ring

theorem unflatten_flatten : ∀ (M : List (List ℕ)) (cols : ℕ),
    (∀ row ∈ M, row.length = cols) → unflatten cols M.length M.flatten = M := by
  intro M
  induction M with
  | nil => intro cols _; rfl
  | cons row rest ih =>
    intro cols hc
    rw [List.length_cons, List.flatten_cons, unflatten]
    have hrow : row.length = cols := hc row (by simp)
    rw [show (row ++ rest.flatten).take cols = row from by
        rw [← hrow]; exact List.take_left row _,
      show (row ++ rest.flatten).drop cols = rest.flatten from by
        rw [← hrow]; exact List.drop_left row _,
      ih cols fun r hr => hc r (by simp [hr])]

/-- C6: the writer emits exactly `rows · cols` four-byte little-endian
values in row-major order with no header or padding — the output length
is exactly `rows · cols · 4` bytes, every byte is below 256, and
decoding the stream as row-major little-endian 32-bit words reproduces
the input matrix (hence its float32 values) exactly. -/
theorem c6_binary_writer (matrix : List (List ℕ)) (rows cols : ℕ)
    (hr : matrix.length = rows) (hc : ∀ row ∈ matrix, row.length = cols)
    (hw : ∀ row ∈ matrix, ∀ w ∈ row, w < 2 ^ 32) :
    (save_matrix_binary matrix rows cols).length = rows * cols * 4 ∧
    (∀ b ∈ save_matrix_binary matrix rows cols, b < 256) ∧
    unpackWords (save_matrix_binary matrix rows cols) = matrix.flatten ∧
    unflatten cols rows (unpackWords (save_matrix_binary matrix rows cols)) = matrix ∧
    (unpackWords (save_matrix_binary matrix rows cols)).map float32Val =
      (matrix.flatten).map float32Val := by
  have hjw : ∀ w ∈ matrix.flatten, w < 2 ^ 32 := by
    intro w hwj
    obtain ⟨row, hrow, hmem⟩ := List.mem_flatten.mp hwj
    exact hw row hrow w hmem
  have hsave := save_eq_flatten matrix rows cols hr hc
  have hunpack : unpackWords (save_matrix_binary matrix rows cols) = matrix.flatten := by
    rw [hsave]
    exact unpack_flatten _ hjw
  refine ⟨?_, ?_, hunpack, ?_, by rw [hunpack]⟩
  · rw [hsave, flatten_pack_length, flatten_cols_length matrix cols hc, hr]
  · intro b hb
    rw [hsave] at hb
    obtain ⟨l, hl, hbl⟩ := List.mem_flatten.mp hb
    obtain ⟨w, _, rfl⟩ := List.mem_map.mp hl
    simp only [packLE, List.mem_cons, List.not_mem_nil, or_false] at hbl
    rcases hbl with h | h | h | h <;> omega
  · rw [hunpack, ← hr]
    exact unflatten_flatten matrix cols hc

/-- Witness for C6 on the one-entry matrix holding the bit pattern of
`1.0f` (`0x3f800000 = 1065353216`). -/
theorem c6_witness :
    (save_matrix_binary [[1065353216]] 1 1).length = 1 * 1 * 4 ∧
    unpackWords (save_matrix_binary [[1065353216]] 1 1) = [[1065353216]].flatten ∧
    unflatten 1 1 (unpackWords (save_matrix_binary [[1065353216]] 1 1)) = [[1065353216]] := by
  have h := c6_binary_writer [[1065353216]] 1 1 rfl (by decide) (by decide)
  exact ⟨h.1, h.2.2.1, h.2.2.2.1⟩

/-! ## C7: the run pipeline and the non-fatal verifier warning -/

/-- Observable events of a run of `main`. -/
inductive Event where
  | saved : ℕ → ℕ → Event
  | warned : Event
deriving DecidableEq

/-- The pipeline of `main`: extract the PCA matrix (its `ValueError`
aborts the run), generate the inverse DCT matrix — the round-trip
verifier prints a warning, summarized by the flag `warn`, when the
measured error exceeds `1e-6` — then save both matrices.  `R`, `C` are
the PCA dimensions and `N` the DCT size (47, 257 and 257 in the
source). -/
def run_model (R C N : ℕ) (warn : Bool) (text : List Char) : Except ExtractError (List Event) :=
  (extract_pca_matrix R C text).map fun _ =>
    (if warn then [Event.warned] else []) ++ [Event.saved R C, Event.saved N N]

/-- C7: the verifier warning is non-fatal — whatever the warning flag,
when extraction succeeds the run completes normally with both files
saved; only an extraction error terminates the run abnormally. -/
theorem c7_warning_nonfatal :
    (∀ (R C N : ℕ) (warn : Bool) (text : List Char) (m : List (List ℚ)),
      extract_pca_matrix R C text = .ok m →
      ∃ evs, run_model R C N warn text = .ok evs ∧
        Event.saved R C ∈ evs ∧ Event.saved N N ∈ evs) ∧
    (∀ (R C N : ℕ) (warn : Bool) (text : List Char) (e : ExtractError),
      extract_pca_matrix R C text = .error e →
      run_model R C N warn text = .error e) := by
  constructor
  · intro R C N warn text m hok
    refine ⟨(if warn then [Event.warned] else []) ++ [Event.saved R C, Event.saved N N],
      ?_, by simp, by simp⟩
    rw [run_model, hok]
    rfl
  · intro R C N warn text e herr
    rw [run_model, herr]
    rfl

/-- Witness for C7: on the concrete 2×2 literal, with the warning
raised, the run still completes with both files saved. -/
theorem c7_witness :
    ∃ evs, run_model 2 2 3 true scenarioLit = .ok evs ∧
      Event.saved 2 2 ∈ evs ∧ Event.saved 3 3 ∈ evs :=
  c7_warning_nonfatal.1 2 2 3 true scenarioLit [[1, 2], [3, 4]] (by with_unfolding_all rfl)

/-! ## The inverse DCT generator (`generate_idct_matrix`) over ℝ -/

/-- Source constant `ortho_x_factor = sqrt(2.0)`. -/
noncomputable def ortho_x : ℝ := Real.sqrt 2

/-- Source constant `ortho_y_factor = 0.5 * sqrt(2.0 / (N - 1))`. -/
noncomputable def ortho_y (N : ℕ) : ℝ := 0.5 * Real.sqrt (2 / ((N : ℝ) - 1))

/-- The forward DCT matrix built by the source:
`F[k][n] = ortho_y * cos(pi*k*(2n+1)/(2N))` for `k = 0` and
`F[k][n] = ortho_x * ortho_y * cos(pi*k*(2n+1)/(2N))` for `k > 0`. -/
noncomputable def Fmat (N : ℕ) : Matrix (Fin N) (Fin N) ℝ := fun k n =>
  if (k : ℕ) = 0 then
    ortho_y N * Real.cos (Real.pi * (k : ℝ) * (2 * (n : ℝ) + 1) / (2 * (N : ℝ)))
  else
    ortho_x * ortho_y N * Real.cos (Real.pi * (k : ℝ) * (2 * (n : ℝ) + 1) / (2 * (N : ℝ)))

/-- Source quantity `norms_sq[k] = sum_n F[k][n]**2`. -/
noncomputable def norms_sq (N : ℕ) (k : Fin N) : ℝ := ∑ n : Fin N, Fmat N k n ^ 2

/-- The generated inverse: `IDCT[n][k] = F[k][n] / norms_sq[k]`. -/
noncomputable def IDCT (N : ℕ) : Matrix (Fin N) (Fin N) ℝ := fun n k =>
  Fmat N k n / norms_sq N k

/-! Spec-side formulas, transliterated from the specification text, to
compare with the source-derived definitions above. -/

/-- Spec: `ortho_x = √2`. -/
noncomputable def specOrthoX : ℝ := Real.sqrt 2

/-- Spec: `ortho_y = 0.5·√(2/(N−1))`. -/
noncomputable def specOrthoY (N : ℕ) : ℝ := 0.5 * Real.sqrt (2 / ((N : ℝ) - 1))

/-- Spec: `F[k][n] = ortho_y·cos(π·k·(2n+1)/(2N))` for `k = 0`, and
`F[k][n] = ortho_x·ortho_y·cos(π·k·(2n+1)/(2N))` for `k > 0`. -/
noncomputable def specF (N : ℕ) (k n : Fin N) : ℝ :=
  if (k : ℕ) = 0 then
    specOrthoY N * Real.cos (Real.pi * (k : ℝ) * (2 * (n : ℝ) + 1) / (2 * (N : ℝ)))
  else
    specOrthoX * specOrthoY N * Real.cos (Real.pi * (k : ℝ) * (2 * (n : ℝ) + 1) / (2 * (N : ℝ)))

/-- Spec: `norm(k) = Σ_n F[k][n]²`. -/
noncomputable def specNorm (N : ℕ) (k : Fin N) : ℝ := ∑ n : Fin N, specF N k n ^ 2

/-- Spec: `G[n][k] = F[k][n] / norm(k)`. -/
noncomputable def specG (N : ℕ) (n k : Fin N) : ℝ := specF N k n / specNorm N k

/-- C1: the generator returns exactly the matrix `G` described by the
spec: its forward basis, row norms, and the entry formula
`G[n][k] = F[k][n]/norm(k)` all coincide with the spec's formulas. -/
theorem c1_generator_formula (N : ℕ) (n k : Fin N) :
    Fmat N k n = specF N k n ∧ norms_sq N k = specNorm N k ∧ IDCT N n k = specG N n k :=
  ⟨rfl, rfl, rfl⟩

/-! ## Orthogonality of the cosine rows -/

theorem sum_telescope (f : ℕ → ℝ) (N : ℕ) :
    ∑ n ∈ Finset.range N, (f (n + 1) - f n) = f N - f 0 := by
  induction N with
  | zero => simp
  | succ n ih =>
    rw [Finset.sum_range_succ, ih]
    ring

theorem sin_telescope (c : ℝ) (N : ℕ) :
    2 * Real.sin c * ∑ n ∈ Finset.range N, Real.cos ((2 * (n : ℝ) + 1) * c) =
      Real.sin (2 * (N : ℝ) * c) := by
  have key : ∀ n : ℕ, Real.sin (2 * ((n : ℝ) + 1) * c) - Real.sin (2 * (n : ℝ) * c) =
      2 * Real.sin c * Real.cos ((2 * (n : ℝ) + 1) * c) := by
    intro n
    have h1 : (2 * ((n : ℝ) + 1) * c - 2 * (n : ℝ) * c) / 2 = c := by ring
    have h2 : (2 * ((n : ℝ) + 1) * c + 2 * (n : ℝ) * c) / 2 = (2 * (n : ℝ) + 1) * c := by ring
    rw [Real.sin_sub_sin, h1, h2]
  have htel := sum_telescope (fun n : ℕ => Real.sin (2 * (n : ℝ) * c)) N
  calc 2 * Real.sin c * ∑ n ∈ Finset.range N, Real.cos ((2 * (n : ℝ) + 1) * c)
      = ∑ n ∈ Finset.range N,
          (Real.sin (2 * ((n : ℝ) + 1) * c) - Real.sin (2 * (n : ℝ) * c)) := by
        rw [Finset.mul_sum]
        exact Finset.sum_congr rfl fun n _ => (key n).symm
    _ = Real.sin (2 * ((N : ℕ) : ℝ) * c) - Real.sin (2 * ((0 : ℕ) : ℝ) * c) := by
        rw [← htel]
        apply Finset.sum_congr rfl
        intro n _
        push_cast
        try ring_nf
    _ = Real.sin (2 * (N : ℝ) * c) := by simp

theorem sin_frac_pos (N : ℕ) (m : ℤ) (hm : 0 < m) (hmN : m < 2 * (N : ℤ)) :
    0 < Real.sin ((m : ℝ) * Real.pi / (2 * (N : ℝ))) := by
  have hN : 0 < N := by omega
  have hNr : (0 : ℝ) < (N : ℝ) := by exact_mod_cast hN
  have hmr : (0 : ℝ) < (m : ℝ) := by exact_mod_cast hm
  have hmNr : (m : ℝ) < 2 * (N : ℝ) := by exact_mod_cast hmN
  apply Real.sin_pos_of_pos_of_lt_pi
  · positivity
  · rw [div_lt_iff₀ (by positivity)]
    nlinarith [Real.pi_pos]

theorem sum_cos_eq_zero (N : ℕ) (m : ℤ) (hm : m ≠ 0) (hmN : |m| < 2 * (N : ℤ)) :
    ∑ n ∈ Finset.range N,
      Real.cos ((2 * (n : ℝ) + 1) * ((m : ℝ) * Real.pi / (2 * (N : ℝ)))) = 0 := by
  have hN : 0 < N := by
    have := abs_nonneg m
    omega
  have hNr : (0 : ℝ) < (N : ℝ) := by exact_mod_cast hN
  have h2Nc : 2 * (N : ℝ) * ((m : ℝ) * Real.pi / (2 * (N : ℝ))) = (m : ℝ) * Real.pi := by
    field_simp
  have hsin0 : Real.sin (2 * (N : ℝ) * ((m : ℝ) * Real.pi / (2 * (N : ℝ)))) = 0 := by
    rw [h2Nc]
    exact Real.sin_int_mul_pi m
  have hsinc : Real.sin ((m : ℝ) * Real.pi / (2 * (N : ℝ))) ≠ 0 := by
    rcases lt_trichotomy m 0 with hm' | hm' | hm'
    · have hpos := sin_frac_pos N (-m) (by omega) (by rw [abs_of_neg hm'] at hmN; omega)
      have : ((-m : ℤ) : ℝ) * Real.pi / (2 * (N : ℝ)) =
          -((m : ℝ) * Real.pi / (2 * (N : ℝ))) := by push_cast; ring
      rw [this, Real.sin_neg] at hpos
      intro hcontra
      rw [hcontra] at hpos
      simp at hpos
    · exact absurd hm' hm
    · exact ne_of_gt (sin_frac_pos N m hm' (by rw [abs_of_pos hm'] at hmN; omega))
  have htel := sin_telescope ((m : ℝ) * Real.pi / (2 * (N : ℝ))) N
  rw [hsin0] at htel
  rcases mul_eq_zero.mp htel with h | h
  · rcases mul_eq_zero.mp h with h' | h'
    · norm_num at h'
    · exact absurd h' hsinc
  · exact h

theorem cos_mul_cos (x y : ℝ) :
    Real.cos x * Real.cos y = (Real.cos (x - y) + Real.cos (x + y)) / 2 := by
  have h1 := Real.cos_add x y
  have h2 := Real.cos_sub x y
  linarith

theorem cos_rows_orth (N : ℕ) (k j : ℕ) (hk : k < N) (hj : j < N) (hkj : k ≠ j) :
    ∑ n ∈ Finset.range N,
      Real.cos (Real.pi * (k : ℝ) * (2 * (n : ℝ) + 1) / (2 * (N : ℝ))) *
        Real.cos (Real.pi * (j : ℝ) * (2 * (n : ℝ) + 1) / (2 * (N : ℝ))) = 0 := by
  have hrw : ∀ n : ℕ,
      Real.cos (Real.pi * (k : ℝ) * (2 * (n : ℝ) + 1) / (2 * (N : ℝ))) *
        Real.cos (Real.pi * (j : ℝ) * (2 * (n : ℝ) + 1) / (2 * (N : ℝ))) =
      (Real.cos ((2 * (n : ℝ) + 1) * ((((k : ℤ) - (j : ℤ) : ℤ) : ℝ) * Real.pi / (2 * (N : ℝ)))) +
       Real.cos ((2 * (n : ℝ) + 1) * ((((k : ℤ) + (j : ℤ) : ℤ) : ℝ) * Real.pi / (2 * (N : ℝ))))) / 2 := by
    intro n
    rw [cos_mul_cos]
    have e1 : Real.pi * (k : ℝ) * (2 * (n : ℝ) + 1) / (2 * (N : ℝ)) -
        Real.pi * (j : ℝ) * (2 * (n : ℝ) + 1) / (2 * (N : ℝ)) =
        (2 * (n : ℝ) + 1) * ((((k : ℤ) - (j : ℤ) : ℤ) : ℝ) * Real.pi / (2 * (N : ℝ))) := by
      push_cast
      ring
    have e2 : Real.pi * (k : ℝ) * (2 * (n : ℝ) + 1) / (2 * (N : ℝ)) +
        Real.pi * (j : ℝ) * (2 * (n : ℝ) + 1) / (2 * (N : ℝ)) =
        (2 * (n : ℝ) + 1) * ((((k : ℤ) + (j : ℤ) : ℤ) : ℝ) * Real.pi / (2 * (N : ℝ))) := by
      push_cast
      ring
    rw [e1, e2]
  rw [Finset.sum_congr rfl fun n _ => hrw n]
  have hsub := sum_cos_eq_zero N ((k : ℤ) - (j : ℤ))
    (by omega) (by rw [abs_sub_lt_iff]; omega)
  have hadd := sum_cos_eq_zero N ((k : ℤ) + (j : ℤ))
    (by omega) (by rw [abs_lt]; omega)
  rw [show (∑ n ∈ Finset.range N,
      (Real.cos ((2 * (n : ℝ) + 1) * ((((k : ℤ) - (j : ℤ) : ℤ) : ℝ) * Real.pi / (2 * (N : ℝ)))) +
       Real.cos ((2 * (n : ℝ) + 1) * ((((k : ℤ) + (j : ℤ) : ℤ) : ℝ) * Real.pi / (2 * (N : ℝ))))) / 2) =
    ((∑ n ∈ Finset.range N,
      Real.cos ((2 * (n : ℝ) + 1) * ((((k : ℤ) - (j : ℤ) : ℤ) : ℝ) * Real.pi / (2 * (N : ℝ))))) +
     (∑ n ∈ Finset.range N,
      Real.cos ((2 * (n : ℝ) + 1) * ((((k : ℤ) + (j : ℤ) : ℤ) : ℝ) * Real.pi / (2 * (N : ℝ)))))) / 2
    from by rw [← Finset.sum_add_distrib, ← Finset.sum_div]]
  rw [hsub, hadd]
  norm_num

/-- The per-row scale factor of the forward basis. -/
noncomputable def scale (N : ℕ) (k : Fin N) : ℝ :=
  if (k : ℕ) = 0 then ortho_y N else ortho_x * ortho_y N

theorem Fmat_eq_scale (N : ℕ) (k n : Fin N) :
    Fmat N k n = scale N k * Real.cos (Real.pi * (k : ℝ) * (2 * (n : ℝ) + 1) / (2 * (N : ℝ))) := by
  rw [Fmat, scale]
  by_cases h : (k : ℕ) = 0
  · rw [if_pos h, if_pos h]
  · rw [if_neg h, if_neg h]

theorem ortho_y_pos (N : ℕ) (hN : 2 ≤ N) : 0 < ortho_y N := by
  rw [ortho_y]
  have hNr : (2 : ℝ) ≤ (N : ℝ) := by exact_mod_cast hN
  have h2 : (0 : ℝ) < 2 / ((N : ℝ) - 1) := by
    apply div_pos
    · norm_num
    · linarith
  exact mul_pos (by norm_num) (Real.sqrt_pos.mpr h2)

theorem scale_pos (N : ℕ) (hN : 2 ≤ N) (k : Fin N) : 0 < scale N k := by
  rw [scale]
  by_cases h : (k : ℕ) = 0
  · rw [if_pos h]
    exact ortho_y_pos N hN
  · rw [if_neg h, ortho_x]
    exact mul_pos (Real.sqrt_pos.mpr (by norm_num)) (ortho_y_pos N hN)

theorem cos_angle_pos (N : ℕ) (hN : 0 < N) (k : Fin N) :
    0 < Real.cos (Real.pi * (k : ℝ) * (2 * (0 : ℝ) + 1) / (2 * (N : ℝ))) := by
  have hNr : (0 : ℝ) < (N : ℝ) := by exact_mod_cast hN
  have hkN : ((k : ℕ) : ℝ) < (N : ℝ) := by exact_mod_cast k.isLt
  have hk0 : (0 : ℝ) ≤ ((k : ℕ) : ℝ) := by positivity
  apply Real.cos_pos_of_mem_Ioo
  constructor
  · have : (0 : ℝ) ≤ Real.pi * (k : ℝ) * (2 * (0 : ℝ) + 1) / (2 * (N : ℝ)) := by positivity
    have hpi := Real.pi_pos
    linarith
  · rw [div_lt_iff₀ (by positivity)]
    nlinarith [Real.pi_pos]

theorem norms_sq_pos (N : ℕ) (hN : 2 ≤ N) (k : Fin N) : 0 < norms_sq N k := by
  have hN0 : 0 < N := by omega
  rw [norms_sq]
  apply Finset.sum_pos'
  · intro n _
    positivity
  · refine ⟨⟨0, hN0⟩, Finset.mem_univ _, ?_⟩
    rw [Fmat_eq_scale]
    have hcos : 0 < Real.cos (Real.pi * (k : ℝ) * (2 * ((⟨0, hN0⟩ : Fin N) : ℝ) + 1) /
        (2 * (N : ℝ))) := by
      have := cos_angle_pos N hN0 k
      simpa using this
    exact pow_pos (mul_pos (scale_pos N hN k) hcos) 2

theorem Fmat_mul_IDCT (N : ℕ) (hN : 2 ≤ N) : Fmat N * IDCT N = 1 := by
  ext k j
  rw [Matrix.mul_apply, Matrix.one_apply]
  have hstep : ∀ n : Fin N, Fmat N k n * IDCT N n j = Fmat N k n * Fmat N j n / norms_sq N j := by
    intro n
    rw [IDCT]
    ring
  rw [Finset.sum_congr rfl fun n _ => hstep n, ← Finset.sum_div]
  by_cases hkj : k = j
  · subst hkj
    rw [if_pos rfl]
    have hsq : ∑ n : Fin N, Fmat N k n * Fmat N k n = norms_sq N k := by
      rw [norms_sq]
      exact Finset.sum_congr rfl fun n _ => (sq (Fmat N k n)).symm
    rw [hsq, div_self (ne_of_gt (norms_sq_pos N hN k))]
  · rw [if_neg hkj]
    have hnum : ∑ n : Fin N, Fmat N k n * Fmat N j n = 0 := by
      have hterm : ∀ n : Fin N, Fmat N k n * Fmat N j n =
          scale N k * scale N j *
            (Real.cos (Real.pi * (k : ℝ) * (2 * (n : ℝ) + 1) / (2 * (N : ℝ))) *
             Real.cos (Real.pi * (j : ℝ) * (2 * (n : ℝ) + 1) / (2 * (N : ℝ)))) := by
        intro n
        rw [Fmat_eq_scale, Fmat_eq_scale]
        ring
      rw [Finset.sum_congr rfl fun n _ => hterm n, ← Finset.mul_sum]
      have hfin : (∑ n : Fin N,
          Real.cos (Real.pi * (k : ℝ) * (2 * (n : ℝ) + 1) / (2 * (N : ℝ))) *
            Real.cos (Real.pi * (j : ℝ) * (2 * (n : ℝ) + 1) / (2 * (N : ℝ)))) =
          ∑ n ∈ Finset.range N,
            Real.cos (Real.pi * (k : ℝ) * (2 * (n : ℝ) + 1) / (2 * (N : ℝ))) *
              Real.cos (Real.pi * (j : ℝ) * (2 * (n : ℝ) + 1) / (2 * (N : ℝ))) :=
        Fin.sum_univ_eq_sum_range
          (fun m : ℕ => Real.cos (Real.pi * (k : ℝ) * (2 * (m : ℝ) + 1) / (2 * (N : ℝ))) *
            Real.cos (Real.pi * (j : ℝ) * (2 * (m : ℝ) + 1) / (2 * (N : ℝ)))) N
      rw [hfin, cos_rows_orth N k j k.isLt j.isLt (fun h => hkj (Fin.ext h))]
      ring
    rw [hnum, zero_div]

theorem IDCT_mul_Fmat (N : ℕ) (hN : 2 ≤ N) : IDCT N * Fmat N = 1 :=
  Matrix.mul_eq_one_comm.mp (Fmat_mul_IDCT N hN)

/-- C2: applying the forward basis and then the derived inverse is the
identity — exactly over ℝ, hence in particular within `1e-6` on every
standard basis vector. -/
theorem c2_roundtrip (N : ℕ) (hN : 2 ≤ N) :
    (∀ x : Fin N → ℝ, (IDCT N).mulVec ((Fmat N).mulVec x) = x) ∧
    (∀ i n : Fin N,
      |(IDCT N).mulVec ((Fmat N).mulVec (Pi.single i (1 : ℝ))) n -
          (Pi.single i (1 : ℝ) : Fin N → ℝ) n| ≤ 1e-6) := by
  have hx : ∀ x : Fin N → ℝ, (IDCT N).mulVec ((Fmat N).mulVec x) = x := by
    intro x
    rw [Matrix.mulVec_mulVec, IDCT_mul_Fmat N hN, Matrix.one_mulVec]
  refine ⟨hx, fun i n => ?_⟩
  rw [hx (Pi.single i (1 : ℝ)), sub_self, abs_zero]
  norm_num

/-- Witness for C2 at `N = 2` on the vector `(3, 5)`. -/
theorem c2_witness : (IDCT 2).mulVec ((Fmat 2).mulVec ![3, 5]) = ![3, 5] :=
  (c2_roundtrip 2 (by norm_num)).1 ![3, 5]

/-! ## C8: failure behaviour of the generator over its size parameter -/

open scoped Classical in
/-- The generator with its Python failure modes made explicit: at
`N = 1` the expression `2.0 / (N - 1)` raises `ZeroDivisionError`; at
`N = 0` it evaluates to `-2.0` and `math.sqrt` raises `ValueError`; and
each entry division `F[k][n] / norms_sq[k]` would raise
`ZeroDivisionError` if a row norm were zero.  Otherwise the generator
returns the inverse matrix. -/
noncomputable def generate_idct_matrix? (N : ℕ) : Option (Matrix (Fin N) (Fin N) ℝ) :=
  if N = 1 then none
  else if N = 0 then none
  else if ∀ k : Fin N, norms_sq N k ≠ 0 then some (IDCT N) else none

/-- Counterexample to C8 as stated: at basis size `N = 1` the generator
does not return a result (division by zero in `ortho_y`). -/
theorem c8_counterexample : generate_idct_matrix? 1 = none := by
  rw [generate_idct_matrix?, if_pos rfl]

/-- C8 (amended): for every basis size `N ≥ 2` the generator returns a
result without failing, and the result is determined by `N` (always the
matrix `IDCT N`). -/
theorem c8_generator_total (N : ℕ) (hN : 2 ≤ N) :
    generate_idct_matrix? N = some (IDCT N) := by
  rw [generate_idct_matrix?, if_neg (by omega), if_neg (by omega),
    if_pos fun k => (norms_sq_pos N hN k).ne']

/-- Witness for the amended C8 at `N = 2`. -/
theorem c8_witness : generate_idct_matrix? 2 = some (IDCT 2) :=
  c8_generator_total 2 (by norm_num)
